import Mathlib

/-!
Verification of the segmentation-and-pipeline core of `tts.js` (the mtskf/ttsjs
repository) against its natural-language specification.

The text splitter (`TextProcessor.splitByTokens`), the retry loop
(`AudioSynthesizer.synthesizeWithRetry`), the merge protocol
(`AudioMerger.mergeFiles`), the cleanup helper (`FileCleanup.removeFiles`) and
the orchestration (`TTSProcessor.processFile`) are shallowly embedded below.
Text is modelled as `List Char`; the external `js-tiktoken` encoder is modelled
as a parameter `tok : List Char → Nat` (the encoding table is a third-party
asset, so theorems quantify over it); the filesystem is modelled as an
association list of path/content pairs; the external `ffmpeg` process is
modelled by an outcome parameter, per the spec's subprocess boundary.
-/

namespace TTS

/-- Sentence-boundary characters of `splitByTokens`: the JS regex
`(?<=[。．！？\n])` in `tts.js` line 117. Note the set holds only the
full-width terminators `。．！？` plus newline; the ASCII period is not
included. -/
def isBoundary (c : Char) : Bool :=
  c = '。' || c = '．' || c = '！' || c = '？' || c = '\n'

/-- Whitespace as used by JavaScript `String.prototype.trim` (the common
members of the WhiteSpace / LineTerminator productions). -/
def isJsWS (c : Char) : Bool :=
  c = ' ' || c = '\t' || c = '\n' || c = '\r' ||
  c.toNat = 0x0B || c.toNat = 0x0C || c.toNat = 0xA0 || c.toNat = 0x1680 ||
  (0x2000 ≤ c.toNat && c.toNat ≤ 0x200A) ||
  c.toNat = 0x2028 || c.toNat = 0x2029 || c.toNat = 0x202F ||
  c.toNat = 0x205F || c.toNat = 0x3000 || c.toNat = 0xFEFF

/-- JS `s.trim()`: remove leading and trailing whitespace. -/
def trimChars (cs : List Char) : List Char :=
  ((cs.dropWhile isJsWS).reverse.dropWhile isJsWS).reverse

/-- Helper for `splitUnits`: accumulates the current unit while scanning.
Mirrors JS `text.split(/(?<=[。．！？\n])/)`: a split point sits right after
every boundary character, except that the end-of-string position is never a
split point (so no trailing empty piece is produced). -/
def splitUnitsAux (acc : List Char) : List Char → List (List Char)
  | [] => [acc]
  | c :: rest =>
    if isBoundary c then
      match rest with
      | [] => [acc ++ [c]]
      | _ :: _ => (acc ++ [c]) :: splitUnitsAux [] rest
    else splitUnitsAux (acc ++ [c]) rest

/-- The sentence-like units of `splitByTokens`:
`text.split(/(?<=[。．！？\n])/)` (`tts.js` line 117). Each unit keeps its
trailing boundary character. -/
def splitUnits (cs : List Char) : List (List Char) :=
  splitUnitsAux [] cs

/-- One iteration of the `for (const sentence of sentences)` loop of
`splitByTokens` (`tts.js` lines 119-133), acting on the state
`(parts, current)`. Skips whitespace-only units; otherwise tests
`current + sentence` against the token limit, flushing `current.trim()`
on overflow. -/
def splitStep (tok : List Char → Nat) (limit : Nat)
    (st : List (List Char) × List Char) (sentence : List Char) :
    List (List Char) × List Char :=
  if trimChars sentence = [] then st
  else
    let testText := st.2 ++ sentence
    if limit < tok testText then
      (if trimChars st.2 = [] then st.1 else st.1 ++ [trimChars st.2], sentence)
    else
      (st.1, testText)

/-- `TextProcessor.splitByTokens` (`tts.js` lines 114-140), with the
`js-tiktoken` encoder abstracted as `tok` (the code uses
`this.encoder.encode(testText).length` with the `cl100k_base` table). -/
def splitByTokens (tok : List Char → Nat) (limit : Nat) (text : List Char) :
    List (List Char) :=
  let st := (splitUnits text).foldl (splitStep tok limit) ([], [])
  if trimChars st.2 = [] then st.1 else st.1 ++ [trimChars st.2]

/-- Dropping a satisfying initial run cannot lengthen a list. -/
theorem length_dropWhile_le' (p : Char → Bool) (l : List Char) :
    (l.dropWhile p).length ≤ l.length := by
  induction l with
  | nil => simp
  | cons c cs ih =>
    by_cases h : p c
    · simp only [List.dropWhile_cons, h, if_true]
      exact Nat.le_trans ih (Nat.le_succ _)
    · simp [List.dropWhile_cons, h]

/-- Trimming cannot lengthen a list. -/
theorem trimChars_length_le (l : List Char) : (trimChars l).length ≤ l.length := by
  unfold trimChars
  calc ((l.dropWhile isJsWS).reverse.dropWhile isJsWS).reverse.length
      = ((l.dropWhile isJsWS).reverse.dropWhile isJsWS).length := List.length_reverse _
    _ ≤ (l.dropWhile isJsWS).reverse.length := length_dropWhile_le' _ _
    _ = (l.dropWhile isJsWS).length := List.length_reverse _
    _ ≤ l.length := length_dropWhile_le' _ _

/-- Goodness of one emitted segment: it fits the budget, or it is the trim of a
single sentence-like unit that alone exceeds the budget. -/
def SegOk (tok : List Char → Nat) (limit : Nat) (U : List (List Char))
    (p : List Char) : Prop :=
  tok p ≤ limit ∨ ∃ u ∈ U, p = trimChars u ∧ limit < tok u

/-- Loop invariant for the accumulation state of `splitByTokens`: all flushed
parts are good, and the running buffer is empty, within budget, or a single
unit. -/
def StOk (tok : List Char → Nat) (limit : Nat) (U : List (List Char))
    (st : List (List Char) × List Char) : Prop :=
  (∀ p ∈ st.1, SegOk tok limit U p) ∧
    (st.2 = [] ∨ tok st.2 ≤ limit ∨ st.2 ∈ U)

/-- A buffer satisfying the invariant flushes to a good segment. -/
theorem flush_ok (tok : List Char → Nat) (limit : Nat) (U : List (List Char))
    (htrim : ∀ s, tok (trimChars s) ≤ tok s) (cur : List Char)
    (hcur : cur = [] ∨ tok cur ≤ limit ∨ cur ∈ U)
    (hne : trimChars cur ≠ []) : SegOk tok limit U (trimChars cur) := by
  rcases hcur with h0 | hle | hmem
  · exact absurd (by rw [h0]; rfl) hne
  · exact Or.inl (Nat.le_trans (htrim cur) hle)
  · by_cases hle2 : tok cur ≤ limit
    · exact Or.inl (Nat.le_trans (htrim cur) hle2)
    · exact Or.inr ⟨cur, hmem, rfl, Nat.lt_of_not_le hle2⟩

/-- One loop iteration of `splitByTokens` preserves the invariant. -/
theorem splitStep_ok (tok : List Char → Nat) (limit : Nat) (U : List (List Char))
    (htrim : ∀ s, tok (trimChars s) ≤ tok s) (u : List Char) (hu : u ∈ U)
    (st : List (List Char) × List Char) (h : StOk tok limit U st) :
    StOk tok limit U (splitStep tok limit st u) := by
  obtain ⟨hparts, hcur⟩ := h
  unfold splitStep
  by_cases hskip : trimChars u = []
  · simp only [hskip, if_pos]
    exact ⟨hparts, hcur⟩
  · rw [if_neg hskip]
    by_cases hov : limit < tok (st.2 ++ u)
    · rw [if_pos hov]
      refine ⟨?_, Or.inr (Or.inr hu)⟩
      intro p hp
      by_cases hc : trimChars st.2 = []
      · rw [if_pos hc] at hp
        exact hparts p hp
      · rw [if_neg hc] at hp
        rcases List.mem_append.mp hp with h1 | h1
        · exact hparts p h1
        · have hpe : p = trimChars st.2 := by simpa using h1
          rw [hpe]
          exact flush_ok tok limit U htrim st.2 hcur hc
    · rw [if_neg hov]
      exact ⟨hparts, Or.inr (Or.inl (Nat.le_of_not_lt hov))⟩

/-- The whole loop of `splitByTokens` preserves the invariant. -/
theorem foldl_splitStep_ok (tok : List Char → Nat) (limit : Nat)
    (U : List (List Char)) (htrim : ∀ s, tok (trimChars s) ≤ tok s) :
    ∀ (us : List (List Char)) (st : List (List Char) × List Char),
      (∀ u ∈ us, u ∈ U) → StOk tok limit U st →
      StOk tok limit U (us.foldl (splitStep tok limit) st)
  | [], _, _, h => h
  | u :: us, st, hs, h =>
    foldl_splitStep_ok tok limit U htrim us (splitStep tok limit st u)
      (fun v hv => hs v (List.mem_cons_of_mem _ hv))
      (splitStep_ok tok limit U htrim u (hs u (List.mem_cons_self _ _)) st h)

/-- C1: for every input text and positive token budget, every segment produced
by `splitByTokens` has token count at most the budget, or else it is (the trim
of) a single sentence-like unit whose own token count exceeds the budget.
The external `cl100k_base` encoder is abstracted as any counter `tok` that
does not grow under trimming. -/
theorem splitByTokens_budget (tok : List Char → Nat) (limit : Nat)
    (hpos : 0 < limit) (htrim : ∀ s, tok (trimChars s) ≤ tok s)
    (text : List Char) (p : List Char) (hp : p ∈ splitByTokens tok limit text) :
    tok p ≤ limit ∨ ∃ u ∈ splitUnits text, p = trimChars u ∧ limit < tok u := by
  have hinit : StOk tok limit (splitUnits text) ([], []) := by
    refine ⟨?_, Or.inl rfl⟩
    intro q hq
    exact absurd hq (List.not_mem_nil q)
  have hfold := foldl_splitStep_ok tok limit (splitUnits text) htrim
    (splitUnits text) ([], []) (fun u hu => hu) hinit
  unfold splitByTokens at hp
  set st := (splitUnits text).foldl (splitStep tok limit) ([], []) with hst
  by_cases hc : trimChars st.2 = []
  · rw [if_pos hc] at hp
    have := hfold.1 p hp
    unfold SegOk at this
    exact this
  · rw [if_neg hc] at hp
    rcases List.mem_append.mp hp with h1 | h1
    · have := hfold.1 p h1
      unfold SegOk at this
      exact this
    · have hpe : p = trimChars st.2 := by simpa using h1
      rw [hpe]
      have := flush_ok tok limit (splitUnits text) htrim st.2 hfold.2 hc
      unfold SegOk at this
      exact this

/-- Witness for C1: token counter `List.length`, budget 2, input `"ab。cd"`;
the segment `"ab。"` is the trim of the single oversized unit `"ab。"`. -/
theorem splitByTokens_budget_w :
    ("ab。".toList).length ≤ 2 ∨
      ∃ u ∈ splitUnits ("ab。cd".toList),
        "ab。".toList = trimChars u ∧ 2 < u.length :=
  splitByTokens_budget List.length 2 (by decide) trimChars_length_le
    ("ab。cd".toList) ("ab。".toList) (by decide)

/-- Unfolding equation of `splitUnitsAux` at the end of the text. -/
theorem splitUnitsAux_nil (acc : List Char) : splitUnitsAux acc [] = [acc] := rfl

/-- Unfolding equation of `splitUnitsAux` at a final boundary character. -/
theorem splitUnitsAux_boundary_last (acc : List Char) (c : Char)
    (h : isBoundary c = true) : splitUnitsAux acc [c] = [acc ++ [c]] := by
  simp [splitUnitsAux, h]

/-- Unfolding equation of `splitUnitsAux` at an interior boundary character. -/
theorem splitUnitsAux_boundary_cut (acc : List Char) (c d : Char)
    (ds : List Char) (h : isBoundary c = true) :
    splitUnitsAux acc (c :: d :: ds) =
      (acc ++ [c]) :: splitUnitsAux [] (d :: ds) := by
  simp [splitUnitsAux, h]

/-- Unfolding equation of `splitUnitsAux` at a non-boundary character. -/
theorem splitUnitsAux_keep (acc : List Char) (c : Char) (cs : List Char)
    (h : isBoundary c = false) :
    splitUnitsAux acc (c :: cs) = splitUnitsAux (acc ++ [c]) cs := by
  simp [splitUnitsAux, h]

/-- The units of `splitUnitsAux` concatenate back to the scanned text. -/
theorem splitUnitsAux_flatten :
    ∀ (cs acc : List Char), (splitUnitsAux acc cs).flatten = acc ++ cs
  | [], acc => by simp [splitUnitsAux_nil]
  | c :: rest, acc => by
    by_cases h : isBoundary c = true
    · cases rest with
      | nil => simp [splitUnitsAux_boundary_last acc c h]
      | cons d ds =>
        rw [splitUnitsAux_boundary_cut acc c d ds h]
        have ih := splitUnitsAux_flatten (d :: ds) []
        simp [ih]
    · rw [splitUnitsAux_keep acc c rest (by simpa using h)]
      have ih := splitUnitsAux_flatten rest (acc ++ [c])
      simp [ih]

/-- The split into sentence-like units loses no characters. -/
theorem splitUnits_flatten (cs : List Char) : (splitUnits cs).flatten = cs :=
  splitUnitsAux_flatten cs []

/-- Dropping a satisfying prefix does not change the complementary filter. -/
theorem filter_dropWhile (p : Char → Bool) (l : List Char) :
    (l.dropWhile p).filter (fun c => !(p c)) = l.filter (fun c => !(p c)) := by
  induction l with
  | nil => simp
  | cons c cs ih =>
    by_cases h : p c
    · simp [List.dropWhile_cons, List.filter_cons, h, ih]
    · simp [List.dropWhile_cons, h]

/-- Trimming does not change the non-whitespace characters. -/
theorem filter_trimChars (l : List Char) :
    (trimChars l).filter (fun c => !(isJsWS c)) =
      l.filter (fun c => !(isJsWS c)) := by
  unfold trimChars
  rw [List.filter_reverse, filter_dropWhile, List.filter_reverse,
    List.reverse_reverse, filter_dropWhile]

/-- A list that trims to nothing holds no non-whitespace characters. -/
theorem trimChars_filter_nil (l : List Char) (h : trimChars l = []) :
    l.filter (fun c => !(isJsWS c)) = [] := by
  rw [← filter_trimChars, h]
  rfl

/-- One loop iteration of `splitByTokens` preserves the non-whitespace
characters carried by the state (flushed parts plus running buffer). -/
theorem splitStep_filter (tok : List Char → Nat) (limit : Nat)
    (st : List (List Char) × List Char) (u : List Char) :
    ((splitStep tok limit st u).1.flatten ++
        (splitStep tok limit st u).2).filter (fun c => !(isJsWS c)) =
      (st.1.flatten ++ st.2 ++ u).filter (fun c => !(isJsWS c)) := by
  unfold splitStep
  by_cases hskip : trimChars u = []
  · rw [if_pos hskip]
    simp [List.filter_append, trimChars_filter_nil u hskip]
  · rw [if_neg hskip]
    by_cases hov : limit < tok (st.2 ++ u)
    · rw [if_pos hov]
      by_cases hc : trimChars st.2 = []
      · rw [if_pos hc]
        simp [List.filter_append, trimChars_filter_nil st.2 hc]
      · rw [if_neg hc]
        simp [List.filter_append, filter_trimChars]
    · rw [if_neg hov]
      simp [List.filter_append]

/-- The whole loop of `splitByTokens` preserves the non-whitespace characters
of the consumed units. -/
theorem foldl_splitStep_filter (tok : List Char → Nat) (limit : Nat) :
    ∀ (us : List (List Char)) (st : List (List Char) × List Char),
      (((us.foldl (splitStep tok limit) st).1.flatten ++
          (us.foldl (splitStep tok limit) st).2).filter (fun c => !(isJsWS c)))
        = (st.1.flatten ++ st.2 ++ us.flatten).filter (fun c => !(isJsWS c))
  | [], st => by simp
  | u :: us, st => by
    have ih := foldl_splitStep_filter tok limit us (splitStep tok limit st u)
    have hstep := splitStep_filter tok limit st u
    have h3 := congrArg
      (fun l => l ++ List.filter (fun c => !(isJsWS c)) us.flatten) hstep
    simp only at h3
    rw [← List.filter_append, ← List.filter_append] at h3
    rw [List.foldl_cons, ih, List.flatten_cons]
    simpa [List.append_assoc] using h3

/-- C2 (amended): concatenating the segment texts in index order reconstructs
the input up to whitespace removal: the non-whitespace characters agree
exactly (none lost, duplicated, or reordered), for every token counter and
budget. The whitespace dropped is not only at segment boundaries: a
whitespace-only unit interior to a segment is dropped as well. -/
theorem splitByTokens_reconstructs_modulo_ws (tok : List Char → Nat)
    (limit : Nat) (text : List Char) :
    ((splitByTokens tok limit text).flatten).filter (fun c => !(isJsWS c)) =
      text.filter (fun c => !(isJsWS c)) := by
  have h := foldl_splitStep_filter tok limit (splitUnits text) ([], [])
  simp only [List.flatten_nil, List.nil_append, splitUnits_flatten] at h
  unfold splitByTokens
  set st := (splitUnits text).foldl (splitStep tok limit) ([], []) with hst
  by_cases hc : trimChars st.2 = []
  · rw [if_pos hc]
    rw [List.filter_append, trimChars_filter_nil st.2 hc, List.append_nil] at h
    exact h
  · rw [if_neg hc]
    rw [List.flatten_append, List.flatten_cons, List.flatten_nil,
      List.append_nil, List.filter_append, filter_trimChars]
    rw [List.filter_append] at h
    exact h

/-- Consumes `piece` from the front of `cs`, returning the rest. -/
def dropPiece : List Char → List Char → Option (List Char)
  | [], cs => some cs
  | _ :: _, [] => none
  | p :: ps, c :: cs => if p = c then dropPiece ps cs else none

/-- Formalisation of the claim C2 wording, for refutation: the input text is
exactly the segment texts in index order, separated and surrounded by
whitespace only (so only whitespace at segment boundaries may be trimmed
away). Greedy whitespace skipping is complete here because every emitted
segment is trimmed, hence starts with a non-whitespace character. -/
def matchesUpToBoundaryWS : List Char → List (List Char) → Bool
  | cs, [] => (cs.dropWhile isJsWS).isEmpty
  | cs, p :: ps =>
    match dropPiece p (cs.dropWhile isJsWS) with
    | some rest => matchesUpToBoundaryWS rest ps
    | none => false

/-- C2 counterexample: on input "A。 \nB。" (token counter `List.length`,
budget 100) the splitter returns the single segment "A。B。": the
whitespace-only unit " \n" interior to the segment is dropped, so the
concatenation does not reconstruct the input up to whitespace trimming at
segment boundaries. -/
theorem splitByTokens_boundary_ws_cex :
    splitByTokens List.length 100 ("A。 \nB。".toList) = ["A。B。".toList] ∧
      matchesUpToBoundaryWS ("A。 \nB。".toList)
        (splitByTokens List.length 100 ("A。 \nB。".toList)) = false := by
  constructor
  · decide
  · decide

/-- Helper: an iteration of `splitByTokens` starting from the empty state on a
non-whitespace-only unit always ends with that unit as the buffer and no
flushed parts, whatever the token count says. -/
theorem splitStep_nil_state (tok : List Char → Nat) (limit : Nat)
    (u : List Char) (hu : trimChars u ≠ []) :
    splitStep tok limit ([], []) u = ([], u) := by
  unfold splitStep
  rw [if_neg hu]
  by_cases h : limit < tok (([] : List Char) ++ u)
  · rw [if_pos h]
    simp [trimChars]
  · rw [if_neg h]
    simp

/-- C5 counterexample: the ASCII period is not a boundary character of the
splitter, so "A. B. C." is one single unit; with a token counter charging one
token per period (each sentence costs about 1) and budget 2, `splitByTokens`
returns the single segment "A. B. C." — not the segment "A. B." followed by
"C." that the greedy trace in the claim predicts. -/
theorem splitByTokens_ascii_period_cex :
    isBoundary '.' = false ∧
      splitByTokens (fun cs => (cs.filter (fun c => c == '.')).length) 2
          ("A. B. C.".toList) = ["A. B. C.".toList] ∧
      splitByTokens (fun cs => (cs.filter (fun c => c == '.')).length) 2
          ("A. B. C.".toList) ≠ ["A. B.".toList, "C.".toList] := by
  refine ⟨by decide, by decide, by decide⟩

/-- C5 (amended): sentence-like units are cut only after the full-width
terminators 。．！？ and after newlines, each unit keeping its trailing
terminator; ASCII periods are not boundaries, so "A. B. C." is a single
indivisible unit and, with budget 2, `splitByTokens` yields the single
segment "A. B. C." for every token counter. -/
theorem splitByTokens_abc_single (tok : List Char → Nat) :
    splitByTokens tok 2 ("A. B. C.".toList) = ["A. B. C.".toList] ∧
      splitUnits ("あ。い！\nう".toList) =
        ["あ。".toList, "い！".toList, "\n".toList, "う".toList] := by
  refine ⟨?_, by decide⟩
  have hu : splitUnits ("A. B. C.".toList) = ["A. B. C.".toList] := by decide
  have htr : trimChars ("A. B. C.".toList) = "A. B. C.".toList := by decide
  have hne : trimChars ("A. B. C.".toList) ≠ [] := by decide
  unfold splitByTokens
  rw [hu]
  simp only [List.foldl_cons, List.foldl_nil]
  rw [splitStep_nil_state tok 2 _ hne]
  rw [if_neg hne, htr]
  rfl

/-- `AudioSynthesizer.synthesizeWithRetry` (`tts.js` lines 165-181), embedded
as a pure trace function: the `for (let attempt = 0; attempt < maxRetries;
attempt++)` loop, starting at the given `attempt` with accumulator
`lastError`. The external boundary `_createAudio` is modelled by `call`,
giving the outcome of each attempt. Returns the number of boundary calls
made, the backoff delays awaited (in milliseconds, in order:
`retryDelay * (attempt + 1)` after every failed attempt except the last),
and the outcome. The thrown value is an `Option ε` because `lastError`
starts as `null`: with zero iterations the code throws `null` itself.
`maxRetries` is an `Int` because the CLI/config value is parsed with
`parseInt` and may be negative. -/
def retryAux {ε α : Type} (call : Nat → Except ε α) (maxRetries : Int)
    (retryDelay : Nat) (attempt : Nat) (lastError : Option ε) :
    Nat × List Nat × Except (Option ε) α :=
  if (attempt : Int) < maxRetries then
    match call attempt with
    | Except.ok a => (1, [], Except.ok a)
    | Except.error e =>
      if (attempt : Int) < maxRetries - 1 then
        let r := retryAux call maxRetries retryDelay (attempt + 1) (some e)
        (r.1 + 1, retryDelay * (attempt + 1) :: r.2.1, r.2.2)
      else
        let r := retryAux call maxRetries retryDelay (attempt + 1) (some e)
        (r.1 + 1, r.2.1, r.2.2)
  else (0, [], Except.error lastError)
termination_by (maxRetries - (attempt : Int)).toNat
decreasing_by all_goals omega

/-- `AudioSynthesizer.synthesizeWithRetry` from its entry point:
`attempt = 0`, `lastError = null`. -/
def synthesizeWithRetry {ε α : Type} (call : Nat → Except ε α)
    (maxRetries : Int) (retryDelay : Nat) :
    Nat × List Nat × Except (Option ε) α :=
  retryAux call maxRetries retryDelay 0 none

/-- Shifting a delay schedule: the schedule for `m` remaining failed attempts
after attempt `a` starts with the delay for attempt `a` and continues with
the schedule for `m - 1` remaining attempts after `a + 1`. -/
theorem range_map_delay_shift (d a m : Nat) (hm : 1 ≤ m) :
    (List.range m).map (fun k => d * (a + k + 1)) =
      d * (a + 1) :: (List.range (m - 1)).map (fun k => d * (a + 1 + k + 1)) := by
  obtain ⟨m', rfl⟩ : ∃ m', m = m' + 1 := ⟨m - 1, by omega⟩
  rw [List.range_succ_eq_map]
  simp only [List.map_cons, List.map_map, Nat.add_succ_sub_one]
  refine congrArg₂ List.cons (by simp) ?_
  apply List.map_congr_left
  intro k _
  simp only [Function.comp_apply, Nat.succ_eq_add_one]
  have hx : a + (k + 1) + 1 = a + 1 + k + 1 := by omega
  rw [hx]

/-- If every boundary call fails, the retry loop with `n` remaining attempts
makes exactly `n` calls, sleeps `retryDelay * (a + 1)` after each failed
attempt `a` except the last one, and throws the error of the final attempt. -/
theorem retryAux_all_fail {ε α : Type} (errs : Nat → ε) (maxRetries : Int)
    (retryDelay : Nat) :
    ∀ (n : Nat) (attempt : Nat) (lastError : Option ε),
      (maxRetries - (attempt : Int)).toNat = n → (attempt : Int) < maxRetries →
      retryAux (fun i => (Except.error (errs i) : Except ε α)) maxRetries
          retryDelay attempt lastError =
        (n, (List.range (n - 1)).map (fun k => retryDelay * (attempt + k + 1)),
          Except.error (some (errs (maxRetries.toNat - 1)))) := by
  intro n
  induction n with
  | zero => intro attempt lastError hn hlt; omega
  | succ m ih =>
    intro attempt lastError hn hlt
    rw [retryAux, if_pos hlt]
    split
    · next a heq => exact absurd heq (fun hcon => Except.noConfusion hcon)
    · next e heq =>
      injection heq with he
      subst he
      by_cases h2 : (attempt : Int) < maxRetries - 1
      · have hm1 : 1 ≤ m := by omega
        have hm : (maxRetries - ((attempt + 1 : Nat) : Int)).toNat = m := by
          push_cast; omega
        have hlt2 : ((attempt + 1 : Nat) : Int) < maxRetries := by
          push_cast; omega
        rw [if_pos h2, ih (attempt + 1) (some (errs attempt)) hm hlt2]
        simp only [Prod.mk.injEq, and_true, true_and, eq_self_iff_true]
        rw [Nat.add_sub_cancel, range_map_delay_shift retryDelay attempt m hm1]
      · have hm0 : m = 0 := by omega
        have hbase : retryAux (fun i => (Except.error (errs i) : Except ε α))
            maxRetries retryDelay (attempt + 1) (some (errs attempt)) =
            (0, [], Except.error (some (errs attempt))) := by
          rw [retryAux, if_neg (by push_cast; omega)]
        rw [if_neg h2, hbase]
        have hidx : maxRetries.toNat - 1 = attempt := by omega
        rw [hidx]
        subst hm0
        simp

/-- C3: if every attempt of the synthesis boundary call fails,
`synthesizeWithRetry` makes exactly `maxRetries` attempts, waits
`retryDelay * attemptNumber` (1-based attempt number) after every failed
attempt except the final one, and propagates the failure of the last
attempt. -/
theorem synthesizeWithRetry_exhaustion {ε α : Type} (errs : Nat → ε)
    (maxRetries : Int) (retryDelay : Nat) (h : 0 < maxRetries) :
    synthesizeWithRetry (fun i => (Except.error (errs i) : Except ε α))
        maxRetries retryDelay =
      (maxRetries.toNat,
        (List.range (maxRetries.toNat - 1)).map
          (fun k => retryDelay * (k + 1)),
        Except.error (some (errs (maxRetries.toNat - 1)))) := by
  have hmain := retryAux_all_fail (α := α) errs maxRetries retryDelay
    maxRetries.toNat 0 none (by omega) (by omega)
  unfold synthesizeWithRetry
  rw [hmain]
  simp

/-- Witness for C3: three attempts with base delay 2 observe delays 2 and 4
and then the error of attempt index 2. -/
theorem synthesizeWithRetry_exhaustion_w :
    synthesizeWithRetry (fun i => (Except.error i : Except Nat Nat)) 3 2 =
      (3, [2, 4], Except.error (some 2)) := by
  have h := synthesizeWithRetry_exhaustion (ε := Nat) (α := Nat)
    (fun i => i) 3 2 (by decide)
  simpa using h

/-- C10: with `maxRetries ≤ 0` (zero or negative), `synthesizeWithRetry`
makes no boundary call at all, awaits no delay, and throws the initial
`lastError`, which is `null` (modelled as `none`) rather than an Error
object. -/
theorem synthesizeWithRetry_nonpos {ε α : Type} (call : Nat → Except ε α)
    (maxRetries : Int) (retryDelay : Nat) (h : maxRetries ≤ 0) :
    synthesizeWithRetry call maxRetries retryDelay =
      (0, [], Except.error none) := by
  unfold synthesizeWithRetry
  rw [retryAux, if_neg (by push_cast; omega)]

/-- Witness for C10 at `maxRetries = -1`. -/
theorem synthesizeWithRetry_nonpos_w :
    synthesizeWithRetry (fun _ => (Except.error 7 : Except Nat Nat)) (-1) 2000 =
      (0, [], Except.error none) :=
  synthesizeWithRetry_nonpos (fun _ => Except.error 7) (-1) 2000 (by decide)

/-- The filesystem as an association list of (path, content) pairs; at most
one live entry per path (`fsWrite` overwrites). -/
abbrev FS := List (String × String)

/-- JS `fs.writeFileSync(p, c)`: replaces any entry at `p`. -/
def fsWrite (fs : FS) (p c : String) : FS :=
  fs.filter (fun e => e.1 != p) ++ [(p, c)]

/-- JS `fs.existsSync(p)`. -/
def fsExists (fs : FS) (p : String) : Bool :=
  fs.any (fun e => e.1 == p)

/-- `FileCleanup.removeFiles` (`tts.js` lines 228-236): unlink each listed
path if it exists; deletion errors are swallowed (deletion succeeds in this
model). -/
def removeFiles (fs : FS) (ps : List String) : FS :=
  fs.filter (fun e => !(ps.contains e.1))

/-- Audio part path written by `AudioSynthesizer.createSegment` (`tts.js`
line 185): `outputDir/stem_part{index+1}.{format}`, where `stem` is the
code's `prefix` variable (the input file basename). The path encodes the
1-based segment index. -/
def partPath (dir stem fmt : String) (index : Nat) : String :=
  dir ++ "/" ++ stem ++ "_part" ++ toString (index + 1) ++ "." ++ fmt

/-- The manifest path `concat_list.txt` of `AudioMerger.mergeFiles`
(`tts.js` line 193). -/
def concatListPath (dir : String) : String := dir ++ "/concat_list.txt"

/-- The merged output path (`tts.js` line 309). -/
def mergedPath (dir stem fmt : String) : String :=
  dir ++ "/" ++ stem ++ "_merged." ++ fmt

/-- ASCII apostrophe, used to quote each path in the manifest. -/
def sq : String := String.singleton (Char.ofNat 39)

/-- Manifest content: one `file <quoted path>` line per part, in list order
(`tts.js` line 196). -/
def manifestContent (parts : List String) : String :=
  String.intercalate "\n" (parts.map (fun p => "file " ++ sq ++ p ++ sq))

/-- Outcome of the external `ffmpeg` subprocess, the spec's collaborator
boundary: success means exit code zero and the output file created; failure
means a non-zero exit code or a spawn error. -/
inductive MergeOutcome where
  | close (code : Int)
  | spawnError

/-- Whether the outcome resolves the merge promise (`tts.js` lines 208-215):
only a `close` event with code 0 resolves; any other exit code, and the
`error` event, reject. -/
def mergeOk : MergeOutcome → Bool
  | MergeOutcome.close code => code == 0
  | MergeOutcome.spawnError => false

/-- `AudioMerger.mergeFiles` (`tts.js` lines 192-225) over the filesystem
model: write the manifest, run the external tool (which creates the output
file exactly on success), and in the `finally` block delete the manifest
whatever the outcome. Returns the filesystem and whether the merge succeeded
(on failure the code throws a merge error instead of returning). -/
def mergeFiles (fs : FS) (parts : List String) (outputPath outputDir : String)
    (outcome : MergeOutcome) : FS × Bool :=
  let listFile := concatListPath outputDir
  let fs1 := fsWrite fs listFile (manifestContent parts)
  let fs2 := if mergeOk outcome then fsWrite fs1 outputPath "audio" else fs1
  (removeFiles fs2 [listFile], mergeOk outcome)

/-- Removing a path immediately leaves a filesystem without it. -/
theorem fsExists_removeFiles_self (fs : FS) (p : String) :
    fsExists (removeFiles fs [p]) p = false := by
  unfold fsExists removeFiles
  rw [List.any_eq_false]
  intro e he
  rw [List.mem_filter] at he
  have h2 := he.2
  simp only [List.contains_cons, List.contains_nil, Bool.or_false,
    Bool.not_eq_true'] at h2
  simpa using h2

/-- C8: after every merge attempt — success, non-zero exit code, or spawn
error — the manifest file `concat_list.txt` has been deleted. -/
theorem mergeFiles_manifest_deleted (fs : FS) (parts : List String)
    (outputPath outputDir : String) (outcome : MergeOutcome) :
    fsExists (mergeFiles fs parts outputPath outputDir outcome).1
      (concatListPath outputDir) = false := by
  simp only [mergeFiles]
  exact fsExists_removeFiles_self _ _

/-- `TTSProcessor.processFile` after input validation (`tts.js` lines
268-321), over the filesystem model, for `n` segments. Each segment's
synthesis either succeeds (`synthOk`) — `createSegment` then writes its part
file — or exhausts its retries; the model lets every task settle. If any
segment failed, the produced parts are removed by `FileCleanup.removeFiles`
and the run fails with no merge attempted; otherwise the parts are merged
and, only on merge success, deleted. The filesystem starts empty; the
returned Bool is run success (the code calls `process.exit(1)` on the
failure paths). -/
def processFileRun (n : Nat) (dir stem fmt : String) (synthOk : Nat → Bool)
    (outcome : MergeOutcome) : FS × Bool :=
  let written := ((List.range n).filter synthOk).map (partPath dir stem fmt)
  let fs1 := written.foldl (fun fs p => fsWrite fs p "audio") []
  if (List.range n).all synthOk then
    let parts := (List.range n).map (partPath dir stem fmt)
    let r := mergeFiles fs1 parts (mergedPath dir stem fmt) dir outcome
    if r.2 then (removeFiles r.1 parts, true) else (r.1, false)
  else
    (removeFiles fs1 written, false)

/-- Every entry of a filesystem built by a sequence of writes has its path
among the written paths or the initial entries. -/
theorem foldl_fsWrite_key_mem :
    ∀ (ps : List String) (fs : FS) (e : String × String),
      e ∈ ps.foldl (fun fs p => fsWrite fs p "audio") fs →
      e.1 ∈ fs.map Prod.fst ∨ e.1 ∈ ps
  | [], _, e, he => Or.inl (List.mem_map_of_mem Prod.fst he)
  | p :: ps, fs, e, he => by
    have ih := foldl_fsWrite_key_mem ps (fsWrite fs p "audio") e
      (by simpa using he)
    rcases ih with h | h
    · unfold fsWrite at h
      rw [List.map_append, List.mem_append] at h
      rcases h with h | h
      · left
        obtain ⟨x, hx, hxe⟩ := List.mem_map.mp h
        rw [List.mem_filter] at hx
        exact List.mem_map.mpr ⟨x, hx.1, hxe⟩
      · right
        simp only [List.map_cons, List.map_nil, List.mem_singleton] at h
        simp [h]
    · right
      exact List.mem_cons_of_mem _ h

/-- C4: if any segment's synthesis fails (exhausts its retries), the run
fails, no merge output or manifest is ever created, and every part file
written for the successful segments is deleted: the run ends with an empty
filesystem. -/
theorem processFileRun_failure_cleanup (n : Nat) (dir stem fmt : String)
    (synthOk : Nat → Bool) (outcome : MergeOutcome) (i : Nat) (hi : i < n)
    (hfail : synthOk i = false) :
    processFileRun n dir stem fmt synthOk outcome = ([], false) := by
  have hall : (List.range n).all synthOk = false :=
    List.all_eq_false.mpr ⟨i, List.mem_range.mpr hi, by simp [hfail]⟩
  simp only [processFileRun, hall, Bool.false_eq_true, if_false]
  refine congrArg₂ Prod.mk ?_ rfl
  unfold removeFiles
  rw [List.filter_eq_nil_iff]
  intro e he
  have hk := foldl_fsWrite_key_mem _ [] e he
  simp only [List.map_nil, List.not_mem_nil, false_or] at hk
  simp only [Bool.not_eq_true', Bool.not_eq_false]
  simp
  simpa using hk

/-- Witness for C4: 5 segments, the first 2 succeed, segment 2 fails; the
run ends failed with zero leftover files. -/
theorem processFileRun_failure_cleanup_w :
    processFileRun 5 "d" "x" "mp3" (fun i => decide (i < 2))
        (MergeOutcome.close 0) = ([], false) :=
  processFileRun_failure_cleanup 5 "d" "x" "mp3" (fun i => decide (i < 2))
    (MergeOutcome.close 0) 2 (by decide) (by decide)

/-- Writing a list of pairwise-distinct fresh paths appends one entry per
path, in order. -/
theorem foldl_fsWrite_nodup :
    ∀ (ps : List String) (fs : FS), ps.Nodup →
      (∀ p ∈ ps, p ∉ fs.map Prod.fst) →
      ps.foldl (fun fs p => fsWrite fs p "audio") fs =
        fs ++ ps.map (fun p => (p, "audio"))
  | [], fs, _, _ => by simp
  | p :: ps, fs, hnd, hdisj => by
    have hp : p ∉ fs.map Prod.fst := hdisj p (List.mem_cons_self _ _)
    have hfsw : fsWrite fs p "audio" = fs ++ [(p, "audio")] := by
      unfold fsWrite
      have h1 : fs.filter (fun e => e.1 != p) = fs := by
        rw [List.filter_eq_self]
        intro e he
        have hne : e.1 ≠ p := fun hep => hp (List.mem_map.mpr ⟨e, he, hep⟩)
        simpa using hne
      rw [h1]
    obtain ⟨hpn, hnd'⟩ := List.nodup_cons.mp hnd
    have hdisj' : ∀ q ∈ ps, q ∉ (fs ++ [(p, "audio")]).map Prod.fst := by
      intro q hq
      rw [List.map_append, List.mem_append]
      rintro (h | h)
      · exact hdisj q (List.mem_cons_of_mem _ hq) h
      · simp only [List.map_cons, List.map_nil, List.mem_singleton] at h
        exact hpn (h ▸ hq)
    rw [List.foldl_cons, hfsw, foldl_fsWrite_nodup ps (fs ++ [(p, "audio")])
      hnd' hdisj']
    simp

/-- Deleting the manifest right after writing it restores a filesystem that
did not contain its path. -/
theorem removeFiles_fsWrite_self (fs : FS) (p c : String)
    (h : ∀ e ∈ fs, e.1 ≠ p) :
    removeFiles (fsWrite fs p c) [p] = fs := by
  unfold removeFiles fsWrite
  rw [List.filter_append]
  have h1 : fs.filter (fun e => e.1 != p) = fs := by
    rw [List.filter_eq_self]
    intro e he
    simpa using h e he
  rw [h1]
  have h2 : fs.filter (fun e => !([p].contains e.1)) = fs := by
    rw [List.filter_eq_self]
    intro e he
    simpa using h e he
  rw [h2]
  simp

/-- C6: if every segment synthesizes but the external concatenation tool
fails (non-zero exit code or spawn error), the run fails and the filesystem
holds exactly the `n` part files, in index order: no part is deleted, no
merged output and no manifest survives. -/
theorem processFileRun_mergeFailure_retention (n : Nat) (dir stem fmt : String)
    (synthOk : Nat → Bool) (outcome : MergeOutcome)
    (hall : ∀ i ∈ List.range n, synthOk i = true)
    (hfail : mergeOk outcome = false)
    (hnd : (((List.range n).map (partPath dir stem fmt))).Nodup)
    (hlf : ∀ i ∈ List.range n, partPath dir stem fmt i ≠ concatListPath dir) :
    (processFileRun n dir stem fmt synthOk outcome).2 = false ∧
      (processFileRun n dir stem fmt synthOk outcome).1.map Prod.fst =
        (List.range n).map (partPath dir stem fmt) := by
  have hallb : (List.range n).all synthOk = true := List.all_eq_true.mpr hall
  have hfilter : (List.range n).filter synthOk = List.range n :=
    List.filter_eq_self.mpr hall
  have hfs1 : (((List.range n).filter synthOk).map
        (partPath dir stem fmt)).foldl (fun fs p => fsWrite fs p "audio") [] =
      ((List.range n).map (partPath dir stem fmt)).map
        (fun p => (p, "audio")) := by
    rw [hfilter, foldl_fsWrite_nodup _ [] hnd (by simp)]
    rfl
  have hkeys : ∀ e ∈ ((List.range n).map (partPath dir stem fmt)).map
      (fun p => (p, "audio")), e.1 ≠ concatListPath dir := by
    intro e he
    obtain ⟨q, hq, hqe⟩ := List.mem_map.mp he
    obtain ⟨j, hj, hje⟩ := List.mem_map.mp hq
    rw [← hqe]
    simpa [hje] using hlf j hj
  have hmerge : mergeFiles (((List.range n).map (partPath dir stem fmt)).map
        (fun p => (p, "audio"))) ((List.range n).map (partPath dir stem fmt))
        (mergedPath dir stem fmt) dir outcome =
      (((List.range n).map (partPath dir stem fmt)).map
        (fun p => (p, "audio")), false) := by
    simp only [mergeFiles, hfail, Bool.false_eq_true, if_false]
    rw [removeFiles_fsWrite_self _ _ _ hkeys]
  simp only [processFileRun, hallb, if_true, hfs1, hmerge, Bool.false_eq_true,
    if_false]
  refine ⟨trivial, ?_⟩
  rw [List.map_map]
  simp

/-- Witness for C6: 5 segments all synthesize, the tool exits with code 1;
exactly the 5 part files remain. -/
theorem processFileRun_mergeFailure_retention_w :
    (processFileRun 5 "d" "x" "mp3" (fun _ => true)
        (MergeOutcome.close 1)).2 = false ∧
      (processFileRun 5 "d" "x" "mp3" (fun _ => true)
          (MergeOutcome.close 1)).1.map Prod.fst =
        (List.range 5).map (partPath "d" "x" "mp3") :=
  processFileRun_mergeFailure_retention 5 "d" "x" "mp3" (fun _ => true)
    (MergeOutcome.close 1) (by decide) (by decide) (by decide) (by decide)

/-- The fan-in slot array of the scheduler: `outputParts[index] = partPath`
(`tts.js` line 286) executed in completion order `order`, starting from the
uninitialised `new Array(textParts.length)` (`tts.js` line 273). -/
def runTasksInOrder (n : Nat) (pp : Nat → String) (order : List Nat) :
    List (Option String) :=
  order.foldl (fun acc i => acc.set i (some (pp i))) (List.replicate n none)

/-- Slot contents after a sequence of index-addressed writes: slot `j` holds
its own part path once `j` was completed, whatever the completion order. -/
theorem foldl_set_getElem? (pp : Nat → String) :
    ∀ (order : List Nat) (acc : List (Option String)) (j : Nat),
      (order.foldl (fun acc i => acc.set i (some (pp i))) acc)[j]? =
        if j ∈ order ∧ j < acc.length then some (some (pp j)) else acc[j]?
  | [], acc, j => by simp
  | i :: order, acc, j => by
    rw [List.foldl_cons, foldl_set_getElem? pp order (acc.set i (some (pp i))) j,
      List.length_set, List.getElem?_set]
    by_cases hji : i = j
    · subst hji
      by_cases hlen : i < acc.length
      · by_cases hmem : i ∈ order
        · simp [hmem, hlen]
        · simp [hmem, hlen, List.mem_cons]
      · have hnone : acc[i]? = none := List.getElem?_eq_none (by omega)
        simp [hlen, hnone, List.mem_cons]
    · by_cases hlen : j < acc.length
      · by_cases hmem : j ∈ order
        · simp [hmem, hlen, List.mem_cons, hji]
        · simp [hmem, hlen, List.mem_cons, hji, Ne.symm hji]
      · have hnone : acc[j]? = none := List.getElem?_eq_none (by omega)
        simp [hlen, hnone, List.mem_cons, hji, Ne.symm hji]

/-- Whatever order the `n` tasks complete in, the slot array ends up holding
the index-`i` part path in slot `i` for every `i`. -/
theorem runTasksInOrder_perm (n : Nat) (pp : Nat → String) (order : List Nat)
    (h : order.Perm (List.range n)) :
    runTasksInOrder n pp order =
      (List.range n).map (fun i => some (pp i)) := by
  apply List.ext_get?
  intro j
  simp only [List.get?_eq_getElem?]
  unfold runTasksInOrder
  rw [foldl_set_getElem? pp order (List.replicate n none) j]
  by_cases hj : j < n
  · have hmem : j ∈ order := h.mem_iff.mpr (List.mem_range.mpr hj)
    rw [if_pos ⟨hmem, by simpa using hj⟩]
    rw [List.getElem?_map, List.getElem?_range hj]
    rfl
  · rw [if_neg (by simp; omega)]
    rw [List.getElem?_eq_none (by simp; omega),
      List.getElem?_eq_none (by simp; omega)]

/-- C7: each AudioPart is written to a path that encodes its segment index;
for every completion order of the synthesis tasks, the output-parts array
ends up listing the part paths in original segment-index order, and the
merge manifest therefore lists them in that same order, one quoted
`file` line per part. -/
theorem pipeline_order_independent (n : Nat) (dir stem fmt : String)
    (order : List Nat) (h : order.Perm (List.range n)) :
    runTasksInOrder n (partPath dir stem fmt) order =
        (List.range n).map (fun i => some (partPath dir stem fmt i)) ∧
      manifestContent ((List.range n).map (partPath dir stem fmt)) =
        String.intercalate "\n" ((List.range n).map
          (fun i => "file " ++ sq ++ partPath dir stem fmt i ++ sq)) := by
  refine ⟨runTasksInOrder_perm n _ order h, ?_⟩
  unfold manifestContent
  rw [List.map_map]
  rfl

/-- Witness for C7: three tasks completing in order 2, 0, 1 still fill the
slots in index order. -/
theorem pipeline_order_independent_w :
    runTasksInOrder 3 (partPath "d" "x" "mp3") [2, 0, 1] =
        (List.range 3).map (fun i => some (partPath "d" "x" "mp3" i)) ∧
      manifestContent ((List.range 3).map (partPath "d" "x" "mp3")) =
        String.intercalate "\n" ((List.range 3).map
          (fun i => "file " ++ sq ++ partPath "d" "x" "mp3" i ++ sq)) :=
  pipeline_order_independent 3 "d" "x" "mp3" [2, 0, 1] (by decide)

end TTS
